import Mathlib

/-!
Shallow embedding of the trace-debugger core (src/src/core/Span.ts,
Trace.ts, Tracer.ts, MetricsCollector.ts and the TraceStorage class).

Modelling conventions:
* JS object references are modelled as numeric span ids looked up in the
  trace's span arena (`allSpans`); mutating a span through a reference is
  modelled as an in-place update of the arena entry with that id.
* The source draws span ids from `Date.now()`/`Math.random()`; uniqueness
  of those ids is what the code relies on, and we model the id supply as a
  counter (`nextSpanId`) threaded through the `Trace`.
* `Date.now()` is an ambient clock; every operation that reads it takes an
  explicit `now : Int` argument.
* JS `Error` values are modelled by their message (`String`).
* A JS `Map` is modelled as an insertion-ordered association list;
  `Map.set` on an existing key overwrites in place (keeping the key's
  position), on a new key it appends.
* JS `x.duration || 0` is modelled by `Option.getD` (both send a missing
  duration, and a duration of `0`, to `0`).
-/

namespace TraceDebugger

/-- Status of a span: `'started' | 'completed' | 'error'` in the source. -/
inductive SpanStatus where
  | started
  | completed
  | error
deriving DecidableEq, Repr

/-- Status of a trace: `'running' | 'completed' | 'failed'` in the source. -/
inductive TraceStatus where
  | running
  | completed
  | failed
deriving DecidableEq, Repr

/-- The `Span` class (src/src/core/Span.ts). `children` holds references to
child spans; references are modelled as span ids into the owning trace's
`allSpans` arena. Attribute values (`Record<string, any>`) are modelled as
strings. -/
structure Span where
  id : Nat
  traceId : String
  name : String
  startTime : Int
  endTime : Option Int := none
  duration : Option Int := none
  status : SpanStatus := .started
  error : Option String := none
  attributes : List (String × String) := []
  children : List Nat := []
  parentId : Option Nat := none
deriving DecidableEq, Repr

/-- The `Span` constructor: status `started`, no end time, no duration,
empty attributes and children. -/
def Span.create (traceId name : String) (parentId : Option Nat) (id : Nat)
    (now : Int) : Span :=
  { id := id
    traceId := traceId
    name := name
    parentId := parentId
    startTime := now }

/-- Models `Span.addChild`: push a child reference. -/
def Span.addChild (s : Span) (childId : Nat) : Span :=
  { s with children := s.children ++ [childId] }

/-- Models `Span.end`: set `endTime`, `duration = endTime - startTime`,
`status = error ? 'error' : 'completed'`, store the error. (`end` is a Lean
keyword, hence the primed name.) -/
def Span.end' (s : Span) (error : Option String) (now : Int) : Span :=
  { s with
    endTime := some now
    duration := some (now - s.startTime)
    status := if error.isSome then .error else .completed
    error := error }

/-- Models `Span.setAttribute`: insert or overwrite in the attribute map. -/
def Span.setAttribute (s : Span) (key value : String) : Span :=
  { s with
    attributes :=
      if s.attributes.any (fun p => p.1 == key) then
        s.attributes.map (fun p => if p.1 == key then (key, value) else p)
      else
        s.attributes ++ [(key, value)] }

/-- Models the source's pervasive `span.duration || 0`. -/
def durOr0 (s : Span) : Int := s.duration.getD 0

/-- The `Trace` class (src/src/core/Trace.ts). `rootSpan` and
`currentSpan` are object references in the source, modelled as ids;
`nextSpanId` models the ambient fresh-id source. -/
structure Trace where
  traceId : String
  startTime : Int
  endTime : Option Int := none
  duration : Option Int := none
  rootSpanId : Nat
  allSpans : List Span
  status : TraceStatus := .running
  currentSpanId : Nat
  nextSpanId : Nat
deriving DecidableEq, Repr

/-- The `Trace` constructor: build the root span, point both the root and
the cursor at it, seed `allSpans` with it. -/
def Trace.create (traceId rootSpanName : String) (now : Int) : Trace :=
  let root := Span.create traceId rootSpanName none 0 now
  { traceId := traceId
    startTime := now
    rootSpanId := root.id
    allSpans := [root]
    currentSpanId := root.id
    nextSpanId := 1 }

/-- Models `this.allSpans.find((s) => s.id === i)`. -/
def findSpan (spans : List Span) (i : Nat) : Option Span :=
  spans.find? (fun s => s.id == i)

/-- Models `Trace.startSpan`: create a span whose parent is the cursor, push it
onto the cursor's children and onto `allSpans`, move the cursor to it. -/
def Trace.startSpan (t : Trace) (name : String) (now : Int) : Trace :=
  let span := Span.create t.traceId name (some t.currentSpanId) t.nextSpanId now
  let spans := t.allSpans.map
    (fun s => if s.id == t.currentSpanId then s.addChild span.id else s)
  { t with
    allSpans := spans ++ [span]
    currentSpanId := span.id
    nextSpanId := t.nextSpanId + 1 }

/-- Models `Trace.endSpan`: end the cursor span; if it has a parent (linear lookup
in `allSpans` by id) move the cursor back to that parent. -/
def Trace.endSpan (t : Trace) (error : Option String) (now : Int) : Trace :=
  let spans := t.allSpans.map
    (fun s => if s.id == t.currentSpanId then s.end' error now else s)
  match findSpan t.allSpans t.currentSpanId with
  | none => { t with allSpans := spans }
  | some cur =>
    match cur.parentId with
    | none => { t with allSpans := spans }
    | some pid =>
      match findSpan spans pid with
      | some parent => { t with allSpans := spans, currentSpanId := parent.id }
      | none => { t with allSpans := spans }

/-- Models `Trace.finish`: set `endTime`, `duration`, and
`status = error ? 'failed' : 'completed'`. The error value itself is not
stored anywhere on the trace. -/
def Trace.finish (t : Trace) (error : Option String) (now : Int) : Trace :=
  { t with
    endTime := some now
    duration := some (now - t.startTime)
    status := if error.isSome then .failed else .completed }

/-- Models `Trace.getSlowOperations`:
`this.allSpans.filter((s) => (s.duration || 0) > thresholdMs)`. -/
def Trace.getSlowOperations (t : Trace) (thresholdMs : Int) : List Span :=
  t.allSpans.filter (fun s => thresholdMs < durOr0 s)

/-- One call in a sequence of `startSpan`/`endSpan` operations on a trace. -/
inductive TraceOp where
  | startSpan (name : String) (now : Int)
  | endSpan (error : Option String) (now : Int)
deriving DecidableEq, Repr

/-- Apply one `TraceOp`. -/
def applyOp (t : Trace) (op : TraceOp) : Trace :=
  match op with
  | .startSpan name now => t.startSpan name now
  | .endSpan error now => t.endSpan error now

/-- Apply a sequence of `startSpan`/`endSpan` calls in order. -/
def applyOps (t : Trace) (ops : List TraceOp) : Trace :=
  ops.foldl applyOp t

/-! ### TraceStorage (the storage class in src/src/core/Span.ts) -/

/-- Overwrite one association-list entry when its key matches. -/
def setEntry {α : Type} (k : String) (v : α) (p : String × α) : String × α :=
  if p.1 == k then (k, v) else p

/-- Models `Map.set` semantics on an insertion-ordered association list: an
existing key is overwritten in place (keeping its position), a new key is
appended at the end. -/
def mapSet {α : Type} (m : List (String × α)) (k : String) (v : α) :
    List (String × α) :=
  if m.any (fun p => p.1 == k) then
    m.map (setEntry k v)
  else
    m ++ [(k, v)]

/-- Models `Map.get` semantics: value of the first entry with the given key. -/
def mapGet {α : Type} (m : List (String × α)) (k : String) : Option α :=
  (m.find? (fun p => p.1 == k)).map Prod.snd

/-- Models `Map.delete` semantics: remove the entry with the given key (keys are
unique in a JS `Map`, so removing the first match is exact). -/
def mapDelete {α : Type} (m : List (String × α)) (k : String) :
    List (String × α) :=
  m.eraseP (fun p => p.1 == k)

/-- The `TraceStorage` class: a bounded insertion-ordered map from trace id
to trace, `maxTraces = 1000`. -/
structure TraceStorage where
  traces : List (String × Trace) := []
  maxTraces : Nat := 1000
deriving DecidableEq, Repr

/-- A fresh `TraceStorage` as built by the constructor. -/
def TraceStorage.empty : TraceStorage := {}

/-- Models `TraceStorage.store`: `set(trace.traceId, trace)`, then if the size
exceeds `maxTraces`, delete the first key of the map. -/
def TraceStorage.store (ts : TraceStorage) (trace : Trace) : TraceStorage :=
  let m := mapSet ts.traces trace.traceId trace
  if m.length > ts.maxTraces then
    match m.head? with
    | some firstEntry => { ts with traces := mapDelete m firstEntry.1 }
    | none => { ts with traces := m }
  else
    { ts with traces := m }

/-- Models `TraceStorage.get`. -/
def TraceStorage.get (ts : TraceStorage) (traceId : String) : Option Trace :=
  mapGet ts.traces traceId

/-- Models `TraceStorage.getAll`: all stored traces in insertion order. -/
def TraceStorage.getAll (ts : TraceStorage) : List Trace :=
  ts.traces.map Prod.snd

/-- Models `TraceStorage.getSlowTraces`:
`getAll().filter((t) => (t.duration || 0) > thresholdMs)`. -/
def TraceStorage.getSlowTraces (ts : TraceStorage) (thresholdMs : Int) :
    List Trace :=
  ts.getAll.filter (fun t => thresholdMs < t.duration.getD 0)

/-! ### Tracer (src/src/core/Tracer.ts) -/

/-- Tracer configuration (src/types). `exportTo`/`captureMetrics` only
gate console printing, which has no effect on the modelled state. -/
structure TracerConfig where
  serviceName : String
  exportTo : String := "console"
  captureMetrics : Bool := true
deriving DecidableEq, Repr

/-- The `Tracer` class: a store of finished traces plus the map of
currently active traces. -/
structure Tracer where
  config : TracerConfig := { serviceName := "" }
  storage : TraceStorage := {}
  activeTraces : List (String × Trace) := []
deriving DecidableEq, Repr

/-- Models `Tracer.startTrace`: create a trace and register it as active. The
source generates `traceId` from `Date.now()`/`Math.random()`; the id is
taken as an argument here. -/
def Tracer.startTrace (tr : Tracer) (traceId name : String) (now : Int) :
    Tracer × Trace :=
  let t := Trace.create traceId name now
  ({ tr with activeTraces := mapSet tr.activeTraces traceId t }, t)

/-- Models `Tracer.finishTrace`: throw `Trace not found` when the id is not
active (modelled as result `none`, with the tracer state unchanged);
otherwise finish the trace, store it, remove it from the active set and
return it. The subsequent `exportTrace` only prints to the console and is
not part of the state. -/
def Tracer.finishTrace (tr : Tracer) (traceId : String)
    (error : Option String) (now : Int) : Tracer × Option Trace :=
  match mapGet tr.activeTraces traceId with
  | none => (tr, none)
  | some t =>
    let finished := t.finish error now
    ({ tr with
        storage := tr.storage.store finished
        activeTraces := mapDelete tr.activeTraces traceId },
     some finished)

/-! ### MetricsCollector (src/src/core/MetricsCollector.ts) -/

/-- Models `str.includes(sub)` for the fixed substrings used by the collector:
`splitOn` yields more than one piece exactly when the (nonempty) needle
occurs in the haystack. -/
def strContainsSub (hay needle : String) : Bool :=
  (hay.splitOn needle).length != 1

/-- The `PerformanceMetrics` record. `slowestOperation` is the
name/duration pair; `averageOperationTime` is a JS float division,
modelled exactly over `ℚ`. -/
structure PerformanceMetrics where
  totalDuration : Int
  slowestOperation : String × Int
  operationCount : Nat
  averageOperationTime : ℚ
  databaseQueries : List (String × Int)
  memoryUsed : ℚ
deriving DecidableEq, Repr

/-- The fold the source uses to find the slowest span, seeded with
`allSpans[0]`: replace only on strictly greater duration, so the first
maximal span wins ties. -/
def slowestSpanOf (spans : List Span) (s0 : Span) : Span :=
  spans.foldl (fun acc s => if durOr0 acc < durOr0 s then s else acc) s0

/-- Models `allSpans.reduce((sum, span) => sum + (span.duration || 0), 0)`. -/
def totalTimeOf (spans : List Span) : Int :=
  spans.foldl (fun sum s => sum + durOr0 s) 0

/-- The database-query extraction: spans whose name contains `database`
or `query`, reduced to a label (the `query` attribute when set and
truthy, else the name) and their duration. -/
def dbQueriesOf (spans : List Span) : List (String × Int) :=
  (spans.filter (fun s =>
      strContainsSub s.name "database" || strContainsSub s.name "query")).map
    (fun s =>
      (match mapGet s.attributes "query" with
       | some q => if q == "" then s.name else q
       | none => s.name,
       durOr0 s))

/-- Models `MetricsCollector.analyzeTrace`. On an empty span list the source
crashes dereferencing `allSpans[0]` (never reachable: a trace always holds
its root), modelled as `none`. The process-memory sample is environmental
and passed in as `memoryUsed`. -/
def MetricsCollector.analyzeTrace (trace : Trace) (memoryUsed : ℚ) :
    Option PerformanceMetrics :=
  match trace.allSpans with
  | [] => none
  | s0 :: _ =>
    some
      { totalDuration := trace.duration.getD 0
        slowestOperation :=
          ((slowestSpanOf trace.allSpans s0).name,
            durOr0 (slowestSpanOf trace.allSpans s0))
        operationCount := trace.allSpans.length
        averageOperationTime :=
          (totalTimeOf trace.allSpans : ℚ) / (trace.allSpans.length : ℚ)
        databaseQueries := dbQueriesOf trace.allSpans
        memoryUsed := memoryUsed }

/-! ### Shared lemmas about the span arena -/

/-- The ids of the spans of an arena, in creation order. -/
def spanIds (spans : List Span) : List Nat := spans.map Span.id

theorem spanIds_map {l : List Span} {f : Span → Span}
    (h : ∀ s, (f s).id = s.id) : spanIds (l.map f) = spanIds l := by
  induction l with
  | nil => rfl
  | cons a l ih =>
    simp only [spanIds, List.map_cons] at ih ⊢
    rw [h a, ih]

theorem spanIds_append (l₁ l₂ : List Span) :
    spanIds (l₁ ++ l₂) = spanIds l₁ ++ spanIds l₂ :=
  List.map_append Span.id l₁ l₂

theorem mem_spanIds_of_mem {s : Span} {l : List Span} (h : s ∈ l) :
    s.id ∈ spanIds l := List.mem_map_of_mem Span.id h


/-- The in-place arena update performed by `startSpan` (push a child onto
the cursor span), as a function of one arena entry. -/
def startUpd (c k : Nat) (s : Span) : Span :=
  if s.id == c then s.addChild k else s

/-- The in-place arena update performed by `endSpan` (end the cursor
span), as a function of one arena entry. -/
def endUpd (c : Nat) (e : Option String) (n : Int) (s : Span) : Span :=
  if s.id == c then s.end' e n else s

theorem startUpd_id (c k : Nat) (s : Span) : (startUpd c k s).id = s.id := by
  unfold startUpd; by_cases h : s.id == c <;> simp [h, Span.addChild]

theorem startUpd_parentId (c k : Nat) (s : Span) :
    (startUpd c k s).parentId = s.parentId := by
  unfold startUpd; by_cases h : s.id == c <;> simp [h, Span.addChild]

theorem endUpd_id (c : Nat) (e : Option String) (n : Int) (s : Span) :
    (endUpd c e n s).id = s.id := by
  unfold endUpd; by_cases h : s.id == c <;> simp [h, Span.end']

theorem endUpd_parentId (c : Nat) (e : Option String) (n : Int) (s : Span) :
    (endUpd c e n s).parentId = s.parentId := by
  unfold endUpd; by_cases h : s.id == c <;> simp [h, Span.end']

/-- Component equations for `startSpan`. -/
theorem startSpan_allSpans (t : Trace) (name : String) (now : Int) :
    (t.startSpan name now).allSpans =
      t.allSpans.map (startUpd t.currentSpanId t.nextSpanId) ++
        [Span.create t.traceId name (some t.currentSpanId) t.nextSpanId now] := rfl

theorem startSpan_currentSpanId (t : Trace) (name : String) (now : Int) :
    (t.startSpan name now).currentSpanId = t.nextSpanId := rfl

theorem startSpan_rootSpanId (t : Trace) (name : String) (now : Int) :
    (t.startSpan name now).rootSpanId = t.rootSpanId := rfl

theorem head?_map_append (f : Span → Span) (l : List Span) (x : Span)
    (h : l ≠ []) : (l.map f ++ [x]).head? = (l.head?).map f := by
  cases l with
  | nil => exact absurd rfl h
  | cons a as => rfl

theorem tail_map_append (f : Span → Span) (l : List Span) (x : Span)
    (h : l ≠ []) : (l.map f ++ [x]).tail = l.tail.map f ++ [x] := by
  cases l with
  | nil => exact absurd rfl h
  | cons a as => rfl

/-- The arena after `endSpan`, in every branch. -/
theorem endSpan_allSpans (t : Trace) (e : Option String) (n : Int) :
    (t.endSpan e n).allSpans =
      t.allSpans.map (endUpd t.currentSpanId e n) := by
  cases hfind : findSpan t.allSpans t.currentSpanId with
  | none => simp only [Trace.endSpan, hfind]; rfl
  | some cur =>
    cases hpar : cur.parentId with
    | none => simp only [Trace.endSpan, hfind, hpar]; rfl
    | some pid =>
      cases hfind2 : findSpan
          (t.allSpans.map (fun s => if s.id == t.currentSpanId then s.end' e n else s)) pid with
      | none => simp only [Trace.endSpan, hfind, hpar, hfind2]; rfl
      | some parent => simp only [Trace.endSpan, hfind, hpar, hfind2]; rfl

/-- The cursor after `endSpan` either stays put or moves to a span that is
present in the (updated) arena. -/
theorem endSpan_currentSpanId (t : Trace) (e : Option String) (n : Int) :
    (t.endSpan e n).currentSpanId = t.currentSpanId ∨
      ∃ parent, parent ∈ (t.endSpan e n).allSpans ∧
        (t.endSpan e n).currentSpanId = parent.id := by
  cases hfind : findSpan t.allSpans t.currentSpanId with
  | none => left; simp only [Trace.endSpan, hfind]
  | some cur =>
    cases hpar : cur.parentId with
    | none => left; simp only [Trace.endSpan, hfind, hpar]
    | some pid =>
      cases hfind2 : findSpan
          (t.allSpans.map (fun s => if s.id == t.currentSpanId then s.end' e n else s)) pid with
      | none => left; simp only [Trace.endSpan, hfind, hpar, hfind2]
      | some parent =>
        right
        refine ⟨parent, ?_, ?_⟩
        · simp only [Trace.endSpan, hfind, hpar, hfind2]
          exact List.mem_of_find?_eq_some hfind2
        · simp only [Trace.endSpan, hfind, hpar, hfind2]

theorem endSpan_fields (t : Trace) (e : Option String) (n : Int) :
    (t.endSpan e n).rootSpanId = t.rootSpanId ∧
      (t.endSpan e n).traceId = t.traceId ∧
      (t.endSpan e n).nextSpanId = t.nextSpanId := by
  cases hfind : findSpan t.allSpans t.currentSpanId with
  | none => refine ⟨?_, ?_, ?_⟩ <;> simp only [Trace.endSpan, hfind]
  | some cur =>
    cases hpar : cur.parentId with
    | none => refine ⟨?_, ?_, ?_⟩ <;> simp only [Trace.endSpan, hfind, hpar]
    | some pid =>
      cases hfind2 : findSpan
          (t.allSpans.map (fun s => if s.id == t.currentSpanId then s.end' e n else s)) pid with
      | none => refine ⟨?_, ?_, ?_⟩ <;> simp only [Trace.endSpan, hfind, hpar, hfind2]
      | some parent => refine ⟨?_, ?_, ?_⟩ <;> simp only [Trace.endSpan, hfind, hpar, hfind2]

/-! ### The structural trace invariant behind claim C1 -/

/-- The first span of the arena is the root span, the cursor points at a
span of the arena, and every span other than the first has a parent id
that is the id of a span of the arena. -/
def RootAndParents (t : Trace) : Prop :=
  (t.allSpans.head?).map Span.id = some t.rootSpanId ∧
  t.currentSpanId ∈ spanIds t.allSpans ∧
  ∀ s ∈ t.allSpans.tail, ∃ p, s.parentId = some p ∧ p ∈ spanIds t.allSpans

theorem rootAndParents_create (traceId rootSpanName : String) (now : Int) :
    RootAndParents (Trace.create traceId rootSpanName now) := by
  refine ⟨rfl, ?_, ?_⟩
  · simp [Trace.create, spanIds, Span.create]
  · intro s hs
    simp [Trace.create] at hs

theorem rootAndParents_startSpan (t : Trace) (name : String) (now : Int)
    (h : RootAndParents t) : RootAndParents (t.startSpan name now) := by
  obtain ⟨h1, h2, h3⟩ := h
  have hne : t.allSpans ≠ [] := by
    intro hnil
    rw [hnil] at h1
    simp at h1
  have hall := startSpan_allSpans t name now
  have hids : spanIds (t.startSpan name now).allSpans =
      spanIds t.allSpans ++ [t.nextSpanId] := by
    rw [hall, spanIds_append, spanIds_map (startUpd_id _ _)]
    rfl
  refine ⟨?_, ?_, ?_⟩
  · rw [hall, startSpan_rootSpanId, head?_map_append _ _ _ hne]
    cases hh : t.allSpans.head? with
    | none => rw [hh] at h1; simp at h1
    | some r =>
      rw [hh] at h1
      have : r.id = t.rootSpanId := by
        simpa using h1
      show some (startUpd t.currentSpanId t.nextSpanId r).id = some t.rootSpanId
      rw [startUpd_id]
      rw [this]
  · rw [startSpan_currentSpanId, hids]
    simp
  · intro s hs
    rw [hall, tail_map_append _ _ _ hne] at hs
    rcases List.mem_append.mp hs with hmem | hmem
    · obtain ⟨s₀, hs₀, rfl⟩ := List.mem_map.mp hmem
      obtain ⟨p, hp, hpmem⟩ := h3 s₀ hs₀
      refine ⟨p, ?_, ?_⟩
      · rw [startUpd_parentId]
        exact hp
      · rw [hids]
        exact List.mem_append_left _ hpmem
    · simp only [List.mem_singleton] at hmem
      subst hmem
      refine ⟨t.currentSpanId, rfl, ?_⟩
      rw [hids]
      exact List.mem_append_left _ h2

theorem rootAndParents_endSpan (t : Trace) (error : Option String) (now : Int)
    (h : RootAndParents t) : RootAndParents (t.endSpan error now) := by
  obtain ⟨h1, h2, h3⟩ := h
  have hne : t.allSpans ≠ [] := by
    intro hnil
    rw [hnil] at h1
    simp at h1
  have hall := endSpan_allSpans t error now
  have hids : spanIds ((t.endSpan error now).allSpans) = spanIds t.allSpans := by
    rw [hall]
    exact spanIds_map (endUpd_id _ _ _)
  have hroot := (endSpan_fields t error now).1
  refine ⟨?_, ?_, ?_⟩
  · rw [hall, hroot, List.head?_map]
    cases hh : t.allSpans.head? with
    | none => rw [hh] at h1; simp at h1
    | some r =>
      rw [hh] at h1
      have : r.id = t.rootSpanId := by
        simpa using h1
      show some (endUpd t.currentSpanId error now r).id = some t.rootSpanId
      rw [endUpd_id]
      rw [this]
  · rcases endSpan_currentSpanId t error now with hc | ⟨parent, hpmem, hc⟩
    · rw [hc, hids]
      exact h2
    · rw [hc]
      exact mem_spanIds_of_mem hpmem
  · intro s hs
    rw [hall] at hs
    cases hl : t.allSpans with
    | nil => exact absurd hl hne
    | cons r rest =>
      rw [hl] at hs
      simp only [List.map_cons, List.tail_cons] at hs
      obtain ⟨s₀, hs₀, rfl⟩ := List.mem_map.mp hs
      have htail : s₀ ∈ t.allSpans.tail := by
        rw [hl]
        exact hs₀
      obtain ⟨p, hp, hpmem⟩ := h3 s₀ htail
      refine ⟨p, ?_, ?_⟩
      · rw [endUpd_parentId]
        exact hp
      · rw [hids]
        exact hpmem

theorem rootAndParents_applyOps (t : Trace) (ops : List TraceOp)
    (h : RootAndParents t) : RootAndParents (applyOps t ops) := by
  induction ops generalizing t with
  | nil => exact h
  | cons op ops ih =>
    cases op with
    | startSpan name now =>
      exact ih _ (rootAndParents_startSpan t name now h)
    | endSpan error now =>
      exact ih _ (rootAndParents_endSpan t error now h)

/-! ### Claim C1 -/

/-- C1: for every trace produced by `Trace.create` followed by any
sequence of `startSpan` and `endSpan` calls, `allSpans[0]` is the root
span, and every span in `allSpans` other than the root has a `parentId`
equal to the id of some span also present in `allSpans`. -/
theorem C1_root_first_and_parents_present (traceId rootSpanName : String)
    (now : Int) (ops : List TraceOp) :
    ((applyOps (Trace.create traceId rootSpanName now) ops).allSpans.head?).map
        Span.id =
      some (applyOps (Trace.create traceId rootSpanName now) ops).rootSpanId ∧
    ∀ s ∈ (applyOps (Trace.create traceId rootSpanName now) ops).allSpans.tail,
      ∃ p, s.parentId = some p ∧
        p ∈ spanIds (applyOps (Trace.create traceId rootSpanName now) ops).allSpans := by
  have h := rootAndParents_applyOps _ ops
    (rootAndParents_create traceId rootSpanName now)
  exact ⟨h.1, h.2.2⟩

/-- Closed instance of C1 on a concrete operation sequence. -/
theorem C1_witness :
    ((applyOps (Trace.create "trace-1" "GET /users" 0)
        [TraceOp.startSpan "db" 1, TraceOp.startSpan "parse" 2,
         TraceOp.endSpan none 3, TraceOp.endSpan none 4]).allSpans.head?).map
        Span.id =
      some (applyOps (Trace.create "trace-1" "GET /users" 0)
        [TraceOp.startSpan "db" 1, TraceOp.startSpan "parse" 2,
         TraceOp.endSpan none 3, TraceOp.endSpan none 4]).rootSpanId ∧
    ∀ s ∈ (applyOps (Trace.create "trace-1" "GET /users" 0)
        [TraceOp.startSpan "db" 1, TraceOp.startSpan "parse" 2,
         TraceOp.endSpan none 3, TraceOp.endSpan none 4]).allSpans.tail,
      ∃ p, s.parentId = some p ∧
        p ∈ spanIds (applyOps (Trace.create "trace-1" "GET /users" 0)
          [TraceOp.startSpan "db" 1, TraceOp.startSpan "parse" 2,
           TraceOp.endSpan none 3, TraceOp.endSpan none 4]).allSpans :=
  C1_root_first_and_parents_present "trace-1" "GET /users" 0
    [TraceOp.startSpan "db" 1, TraceOp.startSpan "parse" 2,
     TraceOp.endSpan none 3, TraceOp.endSpan none 4]

/-! ### Nested start/end sequences (claim C4) -/

/-- The id/parent skeleton of a span arena. -/
def skel (spans : List Span) : List (Nat × Option Nat) :=
  spans.map (fun s => (s.id, s.parentId))

/-- The skeleton of `N` nested spans: span `k+1` is a child of span `k`. -/
def chainSkel : Nat → List (Nat × Option Nat)
  | 0 => [(0, none)]
  | n + 1 => chainSkel n ++ [(n + 1, some n)]

theorem skel_map {l : List Span} {f : Span → Span}
    (hid : ∀ s, (f s).id = s.id) (hpar : ∀ s, (f s).parentId = s.parentId) :
    skel (l.map f) = skel l := by
  induction l with
  | nil => rfl
  | cons a l ih =>
    simp only [skel, List.map_cons] at ih ⊢
    rw [hid a, hpar a, ih]

theorem chainSkel_ids_le (n : Nat) : ∀ p ∈ chainSkel n, p.1 ≤ n := by
  induction n with
  | zero =>
    intro p hp
    simp only [chainSkel, List.mem_singleton] at hp
    subst hp
    exact Nat.le_refl 0
  | succ n ih =>
    intro p hp
    simp only [chainSkel, List.mem_append, List.mem_singleton] at hp
    rcases hp with hp | hp
    · exact Nat.le_succ_of_le (ih p hp)
    · subst hp
      exact Nat.le_refl _

theorem chainSkel_find (n c : Nat) (h : c ≤ n) :
    (chainSkel n).find? (fun p => p.1 == c) =
      some (c, if c = 0 then none else some (c - 1)) := by
  induction n with
  | zero =>
    have hc : c = 0 := Nat.le_zero.mp h
    subst hc
    rfl
  | succ n ih =>
    rcases Nat.lt_or_ge c (n + 1) with hlt | hge
    · have hc : c ≤ n := Nat.lt_succ_iff.mp hlt
      rw [chainSkel, List.find?_append, ih hc]
      rfl
    · have hc : c = n + 1 := Nat.le_antisymm h hge
      subst hc
      have hnone : (chainSkel n).find? (fun p => p.1 == (n + 1)) = none := by
        rw [List.find?_eq_none]
        intro p hp
        have := chainSkel_ids_le n p hp
        simp only [beq_iff_eq]
        omega
      rw [chainSkel, List.find?_append, hnone]
      simp only [Option.none_or]
      have : ((n + 1 : Nat) == (n + 1 : Nat)) = true := beq_self_eq_true _
      simp only [List.find?_cons, this]
      have hz : ¬(n + 1 = 0) := Nat.succ_ne_zero n
      simp [hz]

/-- Relates `findSpan` to the skeleton. -/
theorem findSpan_skel (l : List Span) (c : Nat) :
    (findSpan l c).map (fun s => (s.id, s.parentId)) =
      (skel l).find? (fun p => p.1 == c) := by
  unfold findSpan skel
  rw [List.find?_map]
  rfl

/-- Over an arena with a chain skeleton, `findSpan` returns the span with
the requested id, whose parent is its predecessor in the chain. -/
theorem findSpan_chain {l : List Span} {n c : Nat} (hs : skel l = chainSkel n)
    (h : c ≤ n) :
    ∃ s, findSpan l c = some s ∧ s.id = c ∧
      s.parentId = (if c = 0 then none else some (c - 1)) := by
  have := findSpan_skel l c
  rw [hs, chainSkel_find n c h] at this
  cases hf : findSpan l c with
  | none => rw [hf] at this; simp at this
  | some s =>
    rw [hf] at this
    simp only [Option.map_some', Option.some.injEq, Prod.mk.injEq] at this
    exact ⟨s, rfl, this.1, this.2⟩

/-- The cursor after `endSpan` when the current span has no parent. -/
theorem endSpan_cursor_noParent (t : Trace) (e : Option String) (n : Int)
    (cur : Span) (hfind : findSpan t.allSpans t.currentSpanId = some cur)
    (hpar : cur.parentId = none) :
    (t.endSpan e n).currentSpanId = t.currentSpanId := by
  simp only [Trace.endSpan, hfind, hpar]

/-- The cursor after `endSpan` when the parent is found in the arena. -/
theorem endSpan_cursor_parent (t : Trace) (e : Option String) (n : Int)
    (cur parent : Span) (pid : Nat)
    (hfind : findSpan t.allSpans t.currentSpanId = some cur)
    (hpar : cur.parentId = some pid)
    (hfind2 : findSpan (t.allSpans.map
        (fun s => if s.id == t.currentSpanId then s.end' e n else s)) pid =
      some parent) :
    (t.endSpan e n).currentSpanId = parent.id := by
  simp only [Trace.endSpan, hfind, hpar, hfind2]

/-- A fresh trace followed by nested spans: the arena is a chain of `n + 1`
spans, the cursor sits at depth `c`, the root has id `0`. -/
def ChainAt (t : Trace) (n c : Nat) : Prop :=
  skel t.allSpans = chainSkel n ∧ t.currentSpanId = c ∧ c ≤ n ∧
    t.rootSpanId = 0 ∧ t.nextSpanId = n + 1

theorem chainAt_create (traceId rootSpanName : String) (now : Int) :
    ChainAt (Trace.create traceId rootSpanName now) 0 0 :=
  ⟨rfl, rfl, Nat.le_refl 0, rfl, rfl⟩

theorem skel_append (l₁ l₂ : List Span) :
    skel (l₁ ++ l₂) = skel l₁ ++ skel l₂ :=
  List.map_append _ l₁ l₂

theorem chainAt_startSpan (t : Trace) (name : String) (now : Int) (n : Nat)
    (h : ChainAt t n n) : ChainAt (t.startSpan name now) (n + 1) (n + 1) := by
  obtain ⟨hs, hc, _, hr, hnext⟩ := h
  refine ⟨?_, ?_, Nat.le_refl _, ?_, ?_⟩
  · rw [startSpan_allSpans, skel_append,
      skel_map (startUpd_id _ _) (startUpd_parentId _ _), hs]
    show chainSkel n ++ [(t.nextSpanId, some t.currentSpanId)] = chainSkel (n + 1)
    rw [hc, hnext]
    rfl
  · rw [startSpan_currentSpanId, hnext]
  · rw [startSpan_rootSpanId, hr]
  · show t.nextSpanId + 1 = (n + 1) + 1
    rw [hnext]

theorem chainAt_endSpan (t : Trace) (e : Option String) (now : Int) (n c : Nat)
    (h : ChainAt t n c) : ChainAt (t.endSpan e now) n (c - 1) := by
  obtain ⟨hs, hc, hcn, hr, hnext⟩ := h
  have hskel : skel (t.endSpan e now).allSpans = chainSkel n := by
    rw [endSpan_allSpans, skel_map (endUpd_id _ _ _) (endUpd_parentId _ _ _)]
    exact hs
  have hfields := endSpan_fields t e now
  have hcle : t.currentSpanId ≤ n := by rw [hc]; exact hcn
  obtain ⟨cur, hfind, hcurid, hcurpar⟩ := findSpan_chain hs hcle
  rw [hc] at hcurpar
  refine ⟨hskel, ?_, Nat.le_trans (Nat.sub_le c 1) hcn, hfields.1.trans hr,
    hfields.2.2.trans hnext⟩
  by_cases hzero : c = 0
  · have hpar0 : cur.parentId = none := by
      rw [hcurpar]
      simp [hzero]
    rw [endSpan_cursor_noParent t e now cur hfind hpar0, hc, hzero]
  · have hpar1 : cur.parentId = some (c - 1) := by
      rw [hcurpar]
      simp [hzero]
    have hsub : c - 1 ≤ n := Nat.le_trans (Nat.sub_le c 1) hcn
    have hskel2 : skel (t.allSpans.map
        (fun s => if s.id == t.currentSpanId then s.end' e now else s)) =
        chainSkel n := by
      show skel (t.allSpans.map (endUpd t.currentSpanId e now)) = chainSkel n
      rw [skel_map (endUpd_id _ _ _) (endUpd_parentId _ _ _)]
      exact hs
    obtain ⟨parent, hfind2, hparid, _⟩ := findSpan_chain hskel2 hsub
    rw [endSpan_cursor_parent t e now cur parent (c - 1) hfind hpar1 hfind2]
    exact hparid

/-- Folds `N` nested `startSpan` calls, given as (name, time) pairs. -/
def startN (t : Trace) (calls : List (String × Int)) : Trace :=
  calls.foldl (fun t p => t.startSpan p.1 p.2) t

/-- Folds `M` `endSpan` calls, given as (error, time) pairs. -/
def endN (t : Trace) (calls : List (Option String × Int)) : Trace :=
  calls.foldl (fun t p => t.endSpan p.1 p.2) t

theorem chainAt_startN (t : Trace) (calls : List (String × Int)) (n : Nat)
    (h : ChainAt t n n) :
    ChainAt (startN t calls) (n + calls.length) (n + calls.length) := by
  induction calls generalizing t n with
  | nil => simpa using h
  | cons p calls ih =>
    have := ih (t.startSpan p.1 p.2) (n + 1) (chainAt_startSpan t p.1 p.2 n h)
    simpa [startN, Nat.add_assoc, Nat.add_comm 1 calls.length] using this

theorem chainAt_endN (t : Trace) (calls : List (Option String × Int)) (n c : Nat)
    (h : ChainAt t n c) : ChainAt (endN t calls) n (c - calls.length) := by
  induction calls generalizing t c with
  | nil => simpa using h
  | cons p calls ih =>
    have := ih (t.endSpan p.1 p.2) (c - 1) (chainAt_endSpan t p.1 p.2 n c h)
    have harith : c - 1 - calls.length = c - (calls.length + 1) := by omega
    simpa [endN, harith] using this

/-! ### Claim C4 -/

/-- C4 counterexample: the claim quantifies over every trace, but on a
trace whose cursor is not at the root (here `Trace.create` followed by one
un-ended `startSpan`), performing `N = 1` nested `startSpan` call followed
by `1` `endSpan` call leaves the cursor at the open child span, not at the
root span. -/
theorem C4_counterexample :
    ((((Trace.create "t" "root" 0).startSpan "a" 1).startSpan "b" 2).endSpan
        none 3).currentSpanId ≠
      ((((Trace.create "t" "root" 0).startSpan "a" 1).startSpan "b" 2).endSpan
        none 3).rootSpanId := by decide

/-- C4 as amended: for every **freshly created** trace, `N` nested
`startSpan` calls followed by `M ≥ N` `endSpan` calls return the cursor to
the root span (so `M = N` returns it to the root, and additional `endSpan`
calls leave it there without crashing, re-ending the root span). -/
theorem C4_amended_cursor_returns_to_root (traceId rootSpanName : String)
    (now : Int) (starts : List (String × Int))
    (ends : List (Option String × Int)) (h : starts.length ≤ ends.length) :
    (endN (startN (Trace.create traceId rootSpanName now) starts) ends).currentSpanId =
      (endN (startN (Trace.create traceId rootSpanName now) starts) ends).rootSpanId := by
  have h0 := chainAt_create traceId rootSpanName now
  have h1 := chainAt_startN (Trace.create traceId rootSpanName now) starts 0 h0
  rw [Nat.zero_add] at h1
  have h2 := chainAt_endN _ ends starts.length starts.length h1
  obtain ⟨_, hc, _, hr, _⟩ := h2
  rw [hc, hr]
  omega

/-- Closed instance of the amended C4: one nested span, ended twice. -/
theorem C4_witness :
    [("db", (1 : Int))].length ≤ [((none : Option String), (2 : Int)),
      ((none : Option String), (3 : Int))].length ∧
    (endN (startN (Trace.create "t" "root" 0) [("db", 1)])
        [(none, 2), (none, 3)]).currentSpanId =
      (endN (startN (Trace.create "t" "root" 0) [("db", 1)])
        [(none, 2), (none, 3)]).rootSpanId :=
  ⟨by decide,
   C4_amended_cursor_returns_to_root "t" "root" 0 [("db", 1)]
     [(none, 2), (none, 3)] (by decide)⟩

/-! ### Association-list lemmas for the JS Map model -/

theorem setEntry_fst {α : Type} (k : String) (v : α) (p : String × α) :
    (setEntry k v p).1 = p.1 := by
  unfold setEntry
  by_cases h : p.1 = k
  · simp [h]
  · simp [h]

theorem keys_map_setEntry {α : Type} (m : List (String × α)) (k : String)
    (v : α) : (m.map (setEntry k v)).map Prod.fst = m.map Prod.fst := by
  induction m with
  | nil => rfl
  | cons p m ih =>
    simp only [List.map_cons]
    rw [setEntry_fst, ih]

theorem any_key_iff {α : Type} (m : List (String × α)) (k : String) :
    m.any (fun p => p.1 == k) = true ↔ k ∈ m.map Prod.fst := by
  simp only [List.any_eq_true, List.mem_map, beq_iff_eq]

theorem mapSet_pos {α : Type} {m : List (String × α)} {k : String} (v : α)
    (h : m.any (fun p => p.1 == k) = true) :
    mapSet m k v = m.map (setEntry k v) := by
  simp [mapSet, h]

theorem mapSet_neg {α : Type} {m : List (String × α)} {k : String} (v : α)
    (h : ¬ m.any (fun p => p.1 == k) = true) :
    mapSet m k v = m ++ [(k, v)] := by
  simp only [mapSet, if_neg h]

theorem mapSet_length_le {α : Type} (m : List (String × α)) (k : String)
    (v : α) : (mapSet m k v).length ≤ m.length + 1 := by
  unfold mapSet
  by_cases h : m.any (fun p => p.1 == k) = true
  · rw [if_pos h, List.length_map]
    exact Nat.le_succ _
  · rw [if_neg h, List.length_append]
    exact Nat.le_refl _

theorem mapSet_key_val {α : Type} {m : List (String × α)} {k : String}
    {v : α} : ∀ p ∈ mapSet m k v, p.1 = k → p.2 = v := by
  intro p hp hk
  unfold mapSet at hp
  by_cases h : m.any (fun q => q.1 == k) = true
  · rw [if_pos h] at hp
    obtain ⟨q, _, rfl⟩ := List.mem_map.mp hp
    unfold setEntry at hk ⊢
    by_cases h2 : q.1 = k
    · simp [h2]
    · simp only [h2, beq_iff_eq, if_neg, if_false] at hk ⊢
  · rw [if_neg h] at hp
    rcases List.mem_append.mp hp with hm | hs
    · exact absurd ((any_key_iff m k).mpr (List.mem_map.mpr ⟨p, hm, hk⟩)) h
    · simp only [List.mem_singleton] at hs
      subst hs
      rfl

theorem mapGet_mapSet {α : Type} (m : List (String × α)) (k : String)
    (v : α) : mapGet (mapSet m k v) k = some v := by
  induction m with
  | nil =>
    have h : ¬ ([] : List (String × α)).any (fun p => p.1 == k) = true := by
      simp
    rw [mapSet_neg v h]
    simp [mapGet]
  | cons q m ih =>
    by_cases hq : q.1 = k
    · have hany : (q :: m).any (fun p => p.1 == k) = true := by
        simp [List.any_cons, hq]
      rw [mapSet_pos v hany]
      unfold mapGet
      simp only [List.map_cons]
      have hset : setEntry k v q = (k, v) := by simp [setEntry, hq]
      have hfind : ((k, v) :: m.map (setEntry k v)).find?
          (fun p => p.1 == k) = some (k, v) :=
        List.find?_cons_of_pos _ (beq_self_eq_true k)
      rw [hset, hfind]
      rfl
    · have hskip : ¬ ((q.1 == k) = true) := by simpa using hq
      by_cases hany : m.any (fun p => p.1 == k) = true
      · have hany2 : (q :: m).any (fun p => p.1 == k) = true := by
          simp only [List.any_cons, hany, Bool.or_true]
        rw [mapSet_pos v hany2]
        unfold mapGet at ih ⊢
        simp only [List.map_cons]
        have hset : setEntry k v q = q := by simp [setEntry, hq]
        have hfind : (q :: m.map (setEntry k v)).find? (fun p => p.1 == k) =
            (m.map (setEntry k v)).find? (fun p => p.1 == k) :=
          List.find?_cons_of_neg _ hskip
        rw [hset, hfind, ← mapSet_pos v hany]
        exact ih
      · have hany2 : ¬ ((q :: m).any (fun p => p.1 == k) = true) := by
          simp only [List.any_cons, Bool.or_eq_true, not_or]
          exact ⟨hskip, hany⟩
        rw [mapSet_neg v hany2]
        unfold mapGet at ih ⊢
        have hfind : (q :: (m ++ [(k, v)])).find? (fun p => p.1 == k) =
            (m ++ [(k, v)]).find? (fun p => p.1 == k) :=
          List.find?_cons_of_neg _ hskip
        rw [List.cons_append, hfind, ← mapSet_neg v hany]
        exact ih

theorem mapGet_eq_none_iff {α : Type} (m : List (String × α)) (k : String) :
    mapGet m k = none ↔ k ∉ m.map Prod.fst := by
  unfold mapGet
  rw [Option.map_eq_none', List.find?_eq_none]
  constructor
  · intro h hmem
    obtain ⟨p, hp, he⟩ := List.mem_map.mp hmem
    exact (h p hp) (by simpa using he)
  · intro h p hp hbeq
    exact h (List.mem_map.mpr ⟨p, hp, by simpa using hbeq⟩)

theorem mem_keys_of_mapGet_eq_some {α : Type} {m : List (String × α)}
    {k : String} {v : α} (h : mapGet m k = some v) : k ∈ m.map Prod.fst := by
  unfold mapGet at h
  cases hf : m.find? (fun p => p.1 == k) with
  | none => rw [hf] at h; exact absurd h (by simp)
  | some p =>
    have hp : p ∈ m := List.mem_of_find?_eq_some hf
    have hk : p.1 = k := by simpa using List.find?_some hf
    exact List.mem_map.mpr ⟨p, hp, hk⟩

theorem mapGet_eq_some_of_mem {α : Type} {m : List (String × α)} {k : String}
    (h : k ∈ m.map Prod.fst) : ∃ v, mapGet m k = some v := by
  cases hg : mapGet m k with
  | some v => exact ⟨v, rfl⟩
  | none => exact absurd h ((mapGet_eq_none_iff m k).mp hg)

theorem mapDelete_cons_self {α : Type} (p : String × α)
    (m : List (String × α)) : mapDelete (p :: m) p.1 = m := by
  unfold mapDelete
  exact List.eraseP_cons_of_pos (beq_self_eq_true p.1)

theorem mapDelete_sub {α : Type} (m : List (String × α)) (k : String) :
    ∀ p ∈ mapDelete m k, p ∈ m := by
  intro p hp
  exact (List.eraseP_sublist m).subset hp

theorem not_mem_keys_mapDelete {α : Type} (m : List (String × α)) (k : String)
    (h : (m.map Prod.fst).Nodup) : k ∉ (mapDelete m k).map Prod.fst := by
  induction m with
  | nil => simp [mapDelete]
  | cons p m ih =>
    simp only [List.map_cons, List.nodup_cons] at h
    obtain ⟨hp, hm⟩ := h
    by_cases hk : p.1 = k
    · rw [show mapDelete (p :: m) k = m by
        rw [← hk]; exact mapDelete_cons_self p m]
      rw [← hk]
      intro hmem
      exact hp (by simpa using hmem)
    · have hskip : ¬ ((p.1 == k) = true) := by simpa using hk
      rw [show mapDelete (p :: m) k = p :: mapDelete m k from
        List.eraseP_cons_of_neg hskip]
      simp only [List.map_cons, List.mem_cons, not_or]
      exact ⟨fun he => hk he.symm, ih hm⟩

/-! ### TraceStorage.store characterization -/

theorem store_eq_no_evict (ts : TraceStorage) (v : Trace)
    (h : ¬ (mapSet ts.traces v.traceId v).length > ts.maxTraces) :
    ts.store v = { ts with traces := mapSet ts.traces v.traceId v } := by
  simp only [TraceStorage.store, if_neg h]

theorem store_eq_evict (ts : TraceStorage) (v : Trace)
    (fe : String × Trace) (rest : List (String × Trace))
    (h : (mapSet ts.traces v.traceId v).length > ts.maxTraces)
    (hm : mapSet ts.traces v.traceId v = fe :: rest) :
    ts.store v = { ts with traces := mapDelete (fe :: rest) fe.1 } := by
  simp only [TraceStorage.store, hm] at h ⊢
  simp only [if_pos h, List.head?_cons]

theorem store_maxTraces (ts : TraceStorage) (v : Trace) :
    (ts.store v).maxTraces = ts.maxTraces := by
  by_cases h : (mapSet ts.traces v.traceId v).length > ts.maxTraces
  · have hne : mapSet ts.traces v.traceId v ≠ [] := by
      intro hnil
      rw [hnil] at h
      simp at h
    obtain ⟨fe, rest, hm⟩ := List.exists_cons_of_ne_nil hne
    rw [store_eq_evict ts v fe rest h hm]
  · rw [store_eq_no_evict ts v h]

/-- Every entry after a `store` already occurs in the map right after the
`set` step (the possible eviction only removes entries). -/
theorem store_traces_sub (ts : TraceStorage) (v : Trace) :
    ∀ p ∈ (ts.store v).traces, p ∈ mapSet ts.traces v.traceId v := by
  intro p hp
  by_cases h : (mapSet ts.traces v.traceId v).length > ts.maxTraces
  · have hne : mapSet ts.traces v.traceId v ≠ [] := by
      intro hnil
      rw [hnil] at h
      simp at h
    obtain ⟨fe, rest, hm⟩ := List.exists_cons_of_ne_nil hne
    rw [store_eq_evict ts v fe rest h hm] at hp
    rw [hm]
    exact mapDelete_sub _ _ p hp
  · rw [store_eq_no_evict ts v h] at hp
    exact hp

/-- Whatever `get` returns under the stored trace's id after a `store` is
the stored trace itself: `store` never modifies the trace value. -/
theorem store_get_self (ts : TraceStorage) (v u : Trace)
    (h : (ts.store v).get v.traceId = some u) : u = v := by
  unfold TraceStorage.get mapGet at h
  cases hf : (ts.store v).traces.find? (fun p => p.1 == v.traceId) with
  | none =>
    rw [hf] at h
    exact absurd h (by simp)
  | some pr =>
    rw [hf] at h
    simp only [Option.map_some', Option.some.injEq] at h
    have hpmem : pr ∈ (ts.store v).traces := List.mem_of_find?_eq_some hf
    have hkey : pr.1 = v.traceId := by simpa using List.find?_some hf
    have hin : pr ∈ mapSet ts.traces v.traceId v := store_traces_sub ts v pr hpmem
    rw [← h]
    exact mapSet_key_val pr hin hkey

theorem store_length_le (ts : TraceStorage) (v : Trace)
    (h : ts.traces.length ≤ ts.maxTraces) :
    (ts.store v).traces.length ≤ ts.maxTraces := by
  have hm := mapSet_length_le ts.traces v.traceId v
  by_cases hlen : (mapSet ts.traces v.traceId v).length > ts.maxTraces
  · have hne : mapSet ts.traces v.traceId v ≠ [] := by
      intro hnil
      rw [hnil] at hlen
      simp at hlen
    obtain ⟨fe, rest, hmm⟩ := List.exists_cons_of_ne_nil hne
    rw [store_eq_evict ts v fe rest hlen hmm]
    show (mapDelete (fe :: rest) fe.1).length ≤ ts.maxTraces
    rw [mapDelete_cons_self fe rest]
    rw [hmm] at hm
    simp only [List.length_cons] at hm
    omega
  · rw [store_eq_no_evict ts v hlen]
    show (mapSet ts.traces v.traceId v).length ≤ ts.maxTraces
    omega

theorem foldl_store_le (l : List Trace) (ts : TraceStorage)
    (h : ts.traces.length ≤ ts.maxTraces) :
    (l.foldl TraceStorage.store ts).traces.length ≤
      (l.foldl TraceStorage.store ts).maxTraces ∧
    (l.foldl TraceStorage.store ts).maxTraces = ts.maxTraces := by
  induction l generalizing ts with
  | nil => exact ⟨h, rfl⟩
  | cons v l ih =>
    have h1 : (ts.store v).traces.length ≤ (ts.store v).maxTraces := by
      rw [store_maxTraces]
      exact store_length_le ts v h
    have := ih (ts.store v) h1
    simp only [List.foldl_cons]
    exact ⟨this.1, this.2.trans (store_maxTraces ts v)⟩

/-! ### Claim C3 -/

/-- C3: after any sequence of `store` calls the store holds at most
`maxTraces = 1000` entries; and whenever an insertion of a new id pushes
the size above capacity, the single evicted entry is the
least-recently-inserted one still present (the head of the insertion
order), independent of trace timestamps. -/
theorem C3_capacity_and_fifo_eviction :
    (∀ l : List Trace,
      (l.foldl TraceStorage.store TraceStorage.empty).traces.length ≤ 1000) ∧
    (∀ (ts : TraceStorage) (tr : Trace), 0 < ts.maxTraces →
      ts.maxTraces ≤ ts.traces.length →
      tr.traceId ∉ ts.traces.map Prod.fst →
      (ts.store tr).traces = ts.traces.tail ++ [(tr.traceId, tr)]) := by
  constructor
  · intro l
    have h0 : (TraceStorage.empty).traces.length ≤ (TraceStorage.empty).maxTraces := by
      simp [TraceStorage.empty]
    have := foldl_store_le l TraceStorage.empty h0
    have hmax : (l.foldl TraceStorage.store TraceStorage.empty).maxTraces = 1000 :=
      this.2
    rw [hmax] at this
    exact this.1
  · intro ts tr hpos hge hnot
    have hany : ¬ ts.traces.any (fun p => p.1 == tr.traceId) = true := by
      intro ha
      exact hnot ((any_key_iff ts.traces tr.traceId).mp ha)
    have hm : mapSet ts.traces tr.traceId tr = ts.traces ++ [(tr.traceId, tr)] :=
      mapSet_neg tr hany
    have hlen : (mapSet ts.traces tr.traceId tr).length > ts.maxTraces := by
      rw [hm]
      simp only [List.length_append, List.length_singleton]
      omega
    have htne : ts.traces ≠ [] := by
      intro hnil
      rw [hnil] at hge
      simp at hge
      omega
    obtain ⟨hd, tl, hht⟩ := List.exists_cons_of_ne_nil htne
    have hmm : mapSet ts.traces tr.traceId tr = hd :: (tl ++ [(tr.traceId, tr)]) := by
      rw [hm, hht]
      rfl
    rw [store_eq_evict ts tr hd (tl ++ [(tr.traceId, tr)]) hlen hmm]
    show mapDelete (hd :: (tl ++ [(tr.traceId, tr)])) hd.1 = ts.traces.tail ++ [(tr.traceId, tr)]
    rw [mapDelete_cons_self, hht]
    rfl

/-- Closed instance of C3's eviction law at capacity 2: storing a third,
fresh id evicts exactly the oldest entry. -/
theorem C3_witness :
    (0 < 2) ∧ (2 ≤ ([("A", Trace.create "A" "r" 0), ("B", Trace.create "B" "r" 1)]).length) ∧
    ("C" ∉ ([("A", Trace.create "A" "r" 0), ("B", Trace.create "B" "r" 1)]).map Prod.fst) ∧
    ((TraceStorage.mk [("A", Trace.create "A" "r" 0), ("B", Trace.create "B" "r" 1)] 2).store
        (Trace.create "C" "r" 2)).traces =
      ([("A", Trace.create "A" "r" 0), ("B", Trace.create "B" "r" 1)]).tail ++
        [("C", Trace.create "C" "r" 2)] :=
  ⟨by decide, by decide, by decide,
   C3_capacity_and_fifo_eviction.2
     (TraceStorage.mk [("A", Trace.create "A" "r" 0), ("B", Trace.create "B" "r" 1)] 2)
     (Trace.create "C" "r" 2) (by decide) (by decide) (by decide)⟩

/-! ### Claim C7 -/

/-- Every entry of a storage fed only by `store` maps an id to a trace
carrying that same id (store keys are always `trace.traceId`). -/
theorem store_kv (ts : TraceStorage) (v : Trace)
    (h : ∀ p ∈ ts.traces, p.1 = p.2.traceId) :
    ∀ p ∈ (ts.store v).traces, p.1 = p.2.traceId := by
  intro p hp
  have hin := store_traces_sub ts v p hp
  unfold mapSet at hin
  by_cases ha : ts.traces.any (fun q => q.1 == v.traceId) = true
  · rw [if_pos ha] at hin
    obtain ⟨q, hq, rfl⟩ := List.mem_map.mp hin
    unfold setEntry
    by_cases h2 : q.1 = v.traceId
    · simp [h2]
    · simp only [h2, beq_iff_eq, if_false]
      exact h q hq
  · rw [if_neg ha] at hin
    rcases List.mem_append.mp hin with hm | hs
    · exact h p hm
    · simp only [List.mem_singleton] at hs
      subst hs
      rfl

theorem foldl_store_kv (l : List Trace) (ts : TraceStorage)
    (h : ∀ p ∈ ts.traces, p.1 = p.2.traceId) :
    ∀ p ∈ (l.foldl TraceStorage.store ts).traces, p.1 = p.2.traceId := by
  induction l generalizing ts with
  | nil => exact h
  | cons v l ih =>
    simp only [List.foldl_cons]
    exact ih _ (store_kv ts v h)

theorem snd_map_setEntry (m : List (String × Trace)) (k : String) (tr : Trace)
    (hkv : ∀ p ∈ m, p.1 = p.2.traceId) :
    (m.map (setEntry k tr)).map Prod.snd =
      (m.map Prod.snd).map (fun u => if u.traceId == k then tr else u) := by
  induction m with
  | nil => rfl
  | cons p m ih =>
    have hp : p.1 = p.2.traceId := hkv p (List.mem_cons_self p m)
    have hm : ∀ q ∈ m, q.1 = q.2.traceId :=
      fun q hq => hkv q (List.mem_cons_of_mem p hq)
    simp only [List.map_cons]
    rw [ih hm]
    congr 1
    unfold setEntry
    by_cases h : p.1 = k
    · have h2 : p.2.traceId = k := by rw [← hp]; exact h
      simp [h, h2]
    · have h2 : ¬ p.2.traceId = k := by rw [← hp]; exact h
      simp [h, h2]

/-- C7: re-storing a trace whose id is already present overwrites the
stored value in place: the key order (hence `getAll()` order and the
identity of the next entry to be evicted, the head of the insertion
order) is exactly as if the key had kept its original position. The two
side conditions hold for every storage reachable from empty via `store`
(`foldl_store_le`, `foldl_store_kv`). -/
theorem C7_restore_preserves_position (ts : TraceStorage) (tr : Trace)
    (hlen : ts.traces.length ≤ ts.maxTraces)
    (hkv : ∀ p ∈ ts.traces, p.1 = p.2.traceId)
    (hmem : tr.traceId ∈ ts.traces.map Prod.fst) :
    (ts.store tr).traces = ts.traces.map (setEntry tr.traceId tr) ∧
    (ts.store tr).traces.map Prod.fst = ts.traces.map Prod.fst ∧
    (ts.store tr).getAll =
      ts.getAll.map (fun u => if u.traceId == tr.traceId then tr else u) ∧
    ((ts.store tr).traces.head?).map Prod.fst =
      (ts.traces.head?).map Prod.fst := by
  have hany : ts.traces.any (fun p => p.1 == tr.traceId) = true :=
    (any_key_iff _ _).mpr hmem
  have hm : mapSet ts.traces tr.traceId tr =
      ts.traces.map (setEntry tr.traceId tr) := mapSet_pos tr hany
  have hnoev : ¬ (mapSet ts.traces tr.traceId tr).length > ts.maxTraces := by
    rw [hm, List.length_map]
    omega
  have htr : (ts.store tr).traces = ts.traces.map (setEntry tr.traceId tr) := by
    rw [store_eq_no_evict ts tr hnoev]
    exact hm
  refine ⟨htr, ?_, ?_, ?_⟩
  · rw [htr, keys_map_setEntry]
  · show (ts.store tr).traces.map Prod.snd = _
    rw [htr]
    exact snd_map_setEntry ts.traces tr.traceId tr hkv
  · rw [htr, List.head?_map]
    cases hh : ts.traces.head? with
    | none => rfl
    | some p => simp [setEntry_fst]

/-- Closed instance of C7: re-storing id `"A"` in a two-entry store keeps
`"A"` first in insertion order and overwrites its value. -/
theorem C7_witness :
    (([("A", Trace.create "A" "r" 0), ("B", Trace.create "B" "r" 1)]).length ≤ 5) ∧
    (∀ p ∈ [("A", Trace.create "A" "r" 0), ("B", Trace.create "B" "r" 1)],
      p.1 = p.2.traceId) ∧
    ((Trace.create "A" "r2" 3).traceId ∈
      ([("A", Trace.create "A" "r" 0), ("B", Trace.create "B" "r" 1)]).map Prod.fst) ∧
    ((TraceStorage.mk [("A", Trace.create "A" "r" 0), ("B", Trace.create "B" "r" 1)] 5).store
        (Trace.create "A" "r2" 3)).traces.map Prod.fst =
      ([("A", Trace.create "A" "r" 0), ("B", Trace.create "B" "r" 1)]).map Prod.fst :=
  ⟨by decide, by decide, by decide,
   (C7_restore_preserves_position
     (TraceStorage.mk [("A", Trace.create "A" "r" 0), ("B", Trace.create "B" "r" 1)] 5)
     (Trace.create "A" "r2" 3) (by decide) (by decide) (by decide)).2.1⟩

/-! ### Claim C10 -/

/-- C10: `Trace.finish` mutates only the trace-level fields `endTime`,
`duration` and `status`; it leaves `allSpans` (hence every span, in
particular a never-ended root span with status `started` and no duration)
untouched, and storing the finished trace does not modify it either: any
trace retrieved from the store under the finished trace's id is exactly
the finished trace, with the root span still started. -/
theorem C10_finish_mutates_only_trace_fields (t : Trace)
    (error : Option String) (now : Int) :
    (t.finish error now).allSpans = t.allSpans ∧
    (t.finish error now).traceId = t.traceId ∧
    (t.finish error now).startTime = t.startTime ∧
    (t.finish error now).rootSpanId = t.rootSpanId ∧
    (t.finish error now).currentSpanId = t.currentSpanId ∧
    (t.finish error now).nextSpanId = t.nextSpanId ∧
    (t.finish error now).endTime = some now ∧
    (t.finish error now).duration = some (now - t.startTime) ∧
    (t.finish error now).status =
      (if error.isSome then TraceStatus.failed else TraceStatus.completed) ∧
    (∀ r, t.allSpans.head? = some r → r.status = SpanStatus.started →
      r.duration = none →
      ((t.finish error now).allSpans.head? = some r ∧
        ∀ (ts : TraceStorage) (u : Trace),
          (ts.store (t.finish error now)).get (t.finish error now).traceId =
            some u →
          u.allSpans.head? = some r ∧ r.status = SpanStatus.started ∧
            r.duration = none)) := by
  refine ⟨rfl, rfl, rfl, rfl, rfl, rfl, rfl, rfl, rfl, ?_⟩
  intro r hh hs hd
  refine ⟨hh, ?_⟩
  intro ts u hget
  have hu : u = t.finish error now := store_get_self ts _ u hget
  subst hu
  exact ⟨hh, hs, hd⟩

/-- Closed instance of C10 on a finished-and-stored concrete trace. -/
theorem C10_witness :
    ((Trace.create "t" "root" 0).finish (some "boom") 9).allSpans =
      (Trace.create "t" "root" 0).allSpans ∧
    ((Trace.create "t" "root" 0).finish (some "boom") 9).status =
      TraceStatus.failed ∧
    (∀ (u : Trace),
      (TraceStorage.empty.store ((Trace.create "t" "root" 0).finish
        (some "boom") 9)).get "t" = some u →
      u.allSpans.head? = (Trace.create "t" "root" 0).allSpans.head?) := by
  have h := C10_finish_mutates_only_trace_fields (Trace.create "t" "root" 0)
    (some "boom") 9
  refine ⟨h.1, h.2.2.2.2.2.2.2.2.1, ?_⟩
  intro u hget
  have hr := h.2.2.2.2.2.2.2.2.2 (Span.create "t" "root" none 0 0)
    (by decide) (by decide) (by decide)
  have := (hr.2 TraceStorage.empty u hget).1
  rw [this]
  rfl

/-! ### Claim C5 -/

/-- The C5 span invariant: `duration` is defined iff the status is not
`started`, and in a terminal status `duration = endTime - startTime`
with `endTime` set. -/
def DurationIffEnded (s : Span) : Prop :=
  (s.duration.isSome = true ↔ s.status ≠ SpanStatus.started) ∧
  (s.status ≠ SpanStatus.started →
    ∃ e, s.endTime = some e ∧ s.duration = some (e - s.startTime))

/-- C5: the duration/status biconditional holds of a created span, is
preserved by `addChild` and `setAttribute`, and is (re)established by
`end`, whose duration is exactly `endTime - startTime`. -/
theorem C5_duration_iff_terminal :
    (∀ (traceId name : String) (parentId : Option Nat) (id : Nat) (now : Int),
      DurationIffEnded (Span.create traceId name parentId id now)) ∧
    (∀ (s : Span) (childId : Nat),
      DurationIffEnded s → DurationIffEnded (s.addChild childId)) ∧
    (∀ (s : Span) (key value : String),
      DurationIffEnded s → DurationIffEnded (s.setAttribute key value)) ∧
    (∀ (s : Span) (error : Option String) (now : Int),
      DurationIffEnded (s.end' error now)) := by
  refine ⟨?_, ?_, ?_, ?_⟩
  · intro traceId name parentId id now
    constructor
    · simp [Span.create]
    · intro h
      exact absurd rfl h
  · intro s childId h
    exact h
  · intro s key value h
    exact h
  · intro s error now
    constructor
    · cases error <;> simp [Span.end']
    · intro _
      exact ⟨now, rfl, rfl⟩

/-- Closed instance of C5 along a create / addChild / setAttribute / end
chain of operations. -/
theorem C5_witness :
    DurationIffEnded (Span.create "t" "op" none 0 5) ∧
    DurationIffEnded ((Span.create "t" "op" none 0 5).addChild 1) ∧
    DurationIffEnded (((Span.create "t" "op" none 0 5).addChild 1).setAttribute
      "k" "v") ∧
    DurationIffEnded ((((Span.create "t" "op" none 0 5).addChild 1).setAttribute
      "k" "v").end' (some "E") 9) :=
  ⟨C5_duration_iff_terminal.1 "t" "op" none 0 5,
   C5_duration_iff_terminal.2.1 _ 1 (C5_duration_iff_terminal.1 "t" "op" none 0 5),
   C5_duration_iff_terminal.2.2.1 _ "k" "v"
     (C5_duration_iff_terminal.2.1 _ 1
       (C5_duration_iff_terminal.1 "t" "op" none 0 5)),
   C5_duration_iff_terminal.2.2.2 _ (some "E") 9⟩

/-! ### Claims C2 and C8 -/

/-- C2 counterexample: the `Trace` record has no error field and
`Trace.finish` discards the error value (only its presence flips the
status), so the supplied error is **not** retrievable from the finished
trace: finishing the same known trace with two different error values
yields completely identical results (tracer state and returned trace), so
no retrieval function can recover the supplied error. -/
theorem C2_counterexample :
    (Tracer.startTrace {} "t1" "op" 0).1.finishTrace "t1" (some "errA") 9 =
      (Tracer.startTrace {} "t1" "op" 0).1.finishTrace "t1" (some "errB") 9 ∧
    ("errA" : String) ≠ "errB" :=
  ⟨rfl, by decide⟩

/-- C2 as amended: when `Tracer.finishTrace` is called on a known trace id
with an error value, the finished trace's status becomes `failed` (not
`completed`); the error value itself is not stored anywhere — the result
is independent of which error value was supplied, so only the failure is
recorded, not the error. -/
theorem C2_amended_failed_status_error_dropped (tr : Tracer)
    (traceId e : String) (now : Int)
    (h : traceId ∈ tr.activeTraces.map Prod.fst) :
    (∃ u, (tr.finishTrace traceId (some e) now).2 = some u ∧
      u.status = TraceStatus.failed ∧ u.status ≠ TraceStatus.completed) ∧
    ∀ e' : String, tr.finishTrace traceId (some e) now =
      tr.finishTrace traceId (some e') now := by
  obtain ⟨t, hget⟩ := mapGet_eq_some_of_mem h
  have hstat : (t.finish (some e) now).status = TraceStatus.failed := rfl
  constructor
  · refine ⟨t.finish (some e) now, ?_, hstat, ?_⟩
    · simp only [Tracer.finishTrace, hget]
    · rw [hstat]
      decide
  · intro e'
    simp only [Tracer.finishTrace, hget]
    rfl

/-- Closed instance of the amended C2 on a one-trace tracer. -/
theorem C2_witness :
    ("t1" ∈ ((Tracer.startTrace {} "t1" "op" 0).1.activeTraces.map Prod.fst)) ∧
    (∃ u, ((Tracer.startTrace {} "t1" "op" 0).1.finishTrace "t1"
        (some "boom") 9).2 = some u ∧
      u.status = TraceStatus.failed ∧ u.status ≠ TraceStatus.completed) :=
  ⟨by decide,
   (C2_amended_failed_status_error_dropped (Tracer.startTrace {} "t1" "op" 0).1
     "t1" "boom" 9 (by decide)).1⟩

/-- C8: `finishTrace` fails (returns the not-found error) iff the id is
not in the active set, and then the tracer state is unchanged; on success
the returned trace is the finished looked-up trace, it is inserted into
the store (and whatever the store then yields under its id is exactly that
trace), and the id is removed from the active set. -/
theorem C8_finishTrace_contract (tr : Tracer) (traceId : String)
    (error : Option String) (now : Int) :
    ((tr.finishTrace traceId error now).2 = none ↔
      traceId ∉ tr.activeTraces.map Prod.fst) ∧
    ((tr.finishTrace traceId error now).2 = none →
      (tr.finishTrace traceId error now).1 = tr) ∧
    (∀ t', (tr.finishTrace traceId error now).2 = some t' →
      ∃ t, mapGet tr.activeTraces traceId = some t ∧
        t' = t.finish error now ∧
        (tr.finishTrace traceId error now).1.storage = tr.storage.store t' ∧
        (tr.finishTrace traceId error now).1.activeTraces =
          mapDelete tr.activeTraces traceId ∧
        (∀ u, (tr.finishTrace traceId error now).1.storage.get t'.traceId =
          some u → u = t') ∧
        ((tr.activeTraces.map Prod.fst).Nodup →
          traceId ∉
            (tr.finishTrace traceId error now).1.activeTraces.map Prod.fst)) := by
  cases hget : mapGet tr.activeTraces traceId with
  | none =>
    refine ⟨?_, ?_, ?_⟩
    · simp only [Tracer.finishTrace, hget]
      constructor
      · intro _
        exact (mapGet_eq_none_iff _ _).mp hget
      · intro _
        trivial
    · intro _
      simp only [Tracer.finishTrace, hget]
    · intro t' ht'
      rw [show (tr.finishTrace traceId error now).2 = none by
        simp only [Tracer.finishTrace, hget]] at ht'
      exact absurd ht' (by simp)
  | some t =>
    have hsome : (tr.finishTrace traceId error now).2 = some (t.finish error now) := by
      simp only [Tracer.finishTrace, hget]
    refine ⟨?_, ?_, ?_⟩
    · rw [hsome]
      constructor
      · intro hcontra
        exact absurd hcontra (by simp)
      · intro hnot
        exact absurd (mem_keys_of_mapGet_eq_some hget) hnot
    · intro hcontra
      rw [hsome] at hcontra
      exact absurd hcontra (by simp)
    · intro t' ht'
      rw [hsome] at ht'
      have ht'' : t' = t.finish error now := by
        simpa using ht'.symm
      subst ht''
      refine ⟨t, rfl, rfl, ?_, ?_, ?_, ?_⟩
      · simp only [Tracer.finishTrace, hget]
      · simp only [Tracer.finishTrace, hget]
      · intro u hu
        exact store_get_self tr.storage _ u (by
          simpa only [Tracer.finishTrace, hget] using hu)
      · intro hnodup
        have : (tr.finishTrace traceId error now).1.activeTraces =
            mapDelete tr.activeTraces traceId := by
          simp only [Tracer.finishTrace, hget]
        rw [this]
        exact not_mem_keys_mapDelete tr.activeTraces traceId hnodup

/-- Closed instance of C8: unknown id fails with the tracer unchanged. -/
theorem C8_witness :
    (((Tracer.startTrace {} "t1" "op" 0).1.finishTrace "nope" none 9).2 =
        none ↔
      "nope" ∉ ((Tracer.startTrace {} "t1" "op" 0).1.activeTraces.map
        Prod.fst)) ∧
    (((Tracer.startTrace {} "t1" "op" 0).1.finishTrace "nope" none 9).2 =
        none →
      ((Tracer.startTrace {} "t1" "op" 0).1.finishTrace "nope" none 9).1 =
        (Tracer.startTrace {} "t1" "op" 0).1) :=
  ⟨(C8_finishTrace_contract (Tracer.startTrace {} "t1" "op" 0).1 "nope" none 9).1,
   (C8_finishTrace_contract (Tracer.startTrace {} "t1" "op" 0).1 "nope" none 9).2.1⟩

/-! ### Claim C6 -/

/-- The C6 claim's description of `getSlowOperations`: the subsequence of
`allSpans` (in order) whose duration strictly exceeds the threshold, with
running spans (no duration) never included. Stated from the claim's words,
to be compared with the source's filter. -/
def slowOpsSpec (t : Trace) (thresholdMs : Int) : List Span :=
  t.allSpans.filter (fun s =>
    match s.duration with
    | some d => decide (thresholdMs < d)
    | none => false)

/-- C6 counterexample: on a fresh trace (its root span is still running,
so it has no duration) with threshold `-1`, the source's
`(duration || 0) > threshold` filter includes the running root span
(`0 > -1`), while the claim says running spans are never included. -/
theorem C6_counterexample :
    (Trace.create "t" "root" 0).getSlowOperations (-1) ≠
      slowOpsSpec (Trace.create "t" "root" 0) (-1) := by
  decide

/-- C6 as amended: for every **nonnegative** threshold,
`getSlowOperations` returns exactly the subsequence of `allSpans`, in
original order, whose duration strictly exceeds the threshold, and
running spans are never included; with a negative threshold a running
span counts as duration `0` and is included. -/
theorem C6_amended_slow_ops_nonneg_threshold (t : Trace) (thresholdMs : Int)
    (h : 0 ≤ thresholdMs) :
    t.getSlowOperations thresholdMs = slowOpsSpec t thresholdMs := by
  unfold Trace.getSlowOperations slowOpsSpec
  apply List.filter_congr
  intro s _
  cases hd : s.duration with
  | none =>
    simp only [durOr0, hd, Option.getD_none]
    exact decide_eq_false (by omega)
  | some d =>
    simp only [durOr0, hd, Option.getD_some]

/-- Closed instance of the amended C6 at threshold `0` on a trace with an
ended span. -/
theorem C6_witness :
    ((0 : Int) ≤ 0) ∧
    (((Trace.create "t" "root" 0).startSpan "db" 1).endSpan none 5).getSlowOperations 0 =
      slowOpsSpec (((Trace.create "t" "root" 0).startSpan "db" 1).endSpan none 5) 0 :=
  ⟨by decide,
   C6_amended_slow_ops_nonneg_threshold
     (((Trace.create "t" "root" 0).startSpan "db" 1).endSpan none 5) 0 (by decide)⟩

/-! ### Claim C9 -/

/-- The strict-replacement fold computes the first span of maximal
duration: the result bounds the seed and every folded span, and splitting
the seeded list at the result, everything strictly earlier has strictly
smaller duration. -/
theorem foldl_slowest (l : List Span) (a : Span) :
    durOr0 a ≤
      durOr0 (l.foldl (fun acc s => if durOr0 acc < durOr0 s then s else acc) a) ∧
    (∀ s ∈ l, durOr0 s ≤
      durOr0 (l.foldl (fun acc s => if durOr0 acc < durOr0 s then s else acc) a)) ∧
    ∃ pre post,
      a :: l = pre ++
        (l.foldl (fun acc s => if durOr0 acc < durOr0 s then s else acc) a) :: post ∧
      ∀ s ∈ pre, durOr0 s <
        durOr0 (l.foldl (fun acc s => if durOr0 acc < durOr0 s then s else acc) a) := by
  induction l generalizing a with
  | nil =>
    refine ⟨le_refl _, ?_, [], [], rfl, ?_⟩
    · intro s hs
      exact absurd hs (List.not_mem_nil s)
    · intro s hs
      exact absurd hs (List.not_mem_nil s)
  | cons b l ih =>
    simp only [List.foldl_cons]
    by_cases hab : durOr0 a < durOr0 b
    · rw [if_pos hab]
      obtain ⟨h1, h2, pre, post, hdecomp, hpre⟩ := ih b
      refine ⟨le_of_lt (lt_of_lt_of_le hab h1), ?_, a :: pre, post, ?_, ?_⟩
      · intro s hs
        rcases List.mem_cons.mp hs with rfl | hs
        · exact h1
        · exact h2 s hs
      · rw [List.cons_append, ← hdecomp]
      · intro s hs
        rcases List.mem_cons.mp hs with rfl | hs
        · exact lt_of_lt_of_le hab h1
        · exact hpre s hs
    · rw [if_neg hab]
      have hba : durOr0 b ≤ durOr0 a := le_of_not_lt hab
      obtain ⟨h1, h2, pre, post, hdecomp, hpre⟩ := ih a
      refine ⟨h1, ?_, ?_⟩
      · intro s hs
        rcases List.mem_cons.mp hs with rfl | hs
        · exact le_trans hba h1
        · exact h2 s hs
      · cases pre with
        | nil =>
          simp only [List.nil_append] at hdecomp
          have ha : l.foldl (fun acc s => if durOr0 acc < durOr0 s then s else acc) a
              = a := by
            injection hdecomp with ha1 ha2
            exact ha1.symm
          refine ⟨[], b :: l, ?_, ?_⟩
          · rw [List.nil_append, ha]
          · intro s hs
            exact absurd hs (List.not_mem_nil s)
        | cons x pre' =>
          rw [List.cons_append] at hdecomp
          have hx : x = a := ((List.cons.injEq _ _ _ _).mp hdecomp).1.symm
          have hl : l = pre' ++
              (l.foldl (fun acc s => if durOr0 acc < durOr0 s then s else acc) a) :: post :=
            ((List.cons.injEq _ _ _ _).mp hdecomp).2
          subst hx
          have hxa : durOr0 x <
              durOr0 (l.foldl (fun acc s => if durOr0 acc < durOr0 s then s else acc) x) :=
            hpre x (List.mem_cons_self x pre')
          refine ⟨x :: b :: pre', post, ?_, ?_⟩
          · rw [List.cons_append, List.cons_append, ← hl]
          · intro s hs
            rcases List.mem_cons.mp hs with rfl | hs
            · exact hxa
            rcases List.mem_cons.mp hs with rfl | hs
            · exact lt_of_le_of_lt hba hxa
            · exact hpre s (List.mem_cons_of_mem x hs)

theorem foldl_sum_durOr0 (l : List Span) (a : Int) :
    l.foldl (fun sum s => sum + durOr0 s) a = a + (l.map durOr0).sum := by
  induction l generalizing a with
  | nil => simp
  | cons b l ih =>
    simp only [List.foldl_cons, List.map_cons, List.sum_cons]
    rw [ih]
    ring

theorem totalTimeOf_eq_sum (l : List Span) :
    totalTimeOf l = (l.map durOr0).sum := by
  unfold totalTimeOf
  rw [foldl_sum_durOr0]
  ring

theorem slowestSpanOf_cons_self (s0 : Span) (rest : List Span) :
    slowestSpanOf (s0 :: rest) s0 = slowestSpanOf rest s0 := by
  unfold slowestSpanOf
  simp only [List.foldl_cons, lt_irrefl, if_false]

/-- C9: on every trace with at least one span, `analyzeTrace` reports as
`slowestOperation` the name and (`|| 0`) duration of the span of maximal
duration over the flattened list, missing durations counting as `0`, ties
broken in favour of the first such span in flattened order; and it reports
`averageOperationTime` equal to the sum of all (`|| 0`) durations divided
by the number of spans. -/
theorem C9_slowest_first_max_and_average (t : Trace) (memoryUsed : ℚ)
    (h : t.allSpans ≠ []) :
    ∃ m sl, MetricsCollector.analyzeTrace t memoryUsed = some m ∧
      sl ∈ t.allSpans ∧
      m.slowestOperation = (sl.name, durOr0 sl) ∧
      (∀ s ∈ t.allSpans, durOr0 s ≤ durOr0 sl) ∧
      (∃ pre post, t.allSpans = pre ++ sl :: post ∧
        ∀ s ∈ pre, durOr0 s < durOr0 sl) ∧
      m.operationCount = t.allSpans.length ∧
      m.averageOperationTime =
        (((t.allSpans.map durOr0).sum : Int) : ℚ) / (t.allSpans.length : ℚ) := by
  obtain ⟨s0, rest, hl⟩ := List.exists_cons_of_ne_nil h
  have hana : MetricsCollector.analyzeTrace t memoryUsed = some
      { totalDuration := t.duration.getD 0
        slowestOperation :=
          ((slowestSpanOf t.allSpans s0).name,
            durOr0 (slowestSpanOf t.allSpans s0))
        operationCount := t.allSpans.length
        averageOperationTime :=
          (totalTimeOf t.allSpans : ℚ) / (t.allSpans.length : ℚ)
        databaseQueries := dbQueriesOf t.allSpans
        memoryUsed := memoryUsed } := by
    rw [show MetricsCollector.analyzeTrace t memoryUsed =
      (match t.allSpans with
      | [] => none
      | s0 :: _ =>
        some
          { totalDuration := t.duration.getD 0
            slowestOperation :=
              ((slowestSpanOf t.allSpans s0).name,
                durOr0 (slowestSpanOf t.allSpans s0))
            operationCount := t.allSpans.length
            averageOperationTime :=
              (totalTimeOf t.allSpans : ℚ) / (t.allSpans.length : ℚ)
            databaseQueries := dbQueriesOf t.allSpans
            memoryUsed := memoryUsed }) from rfl]
    rw [hl]
  refine ⟨_, slowestSpanOf t.allSpans s0, hana, ?_, rfl, ?_, ?_, rfl, ?_⟩
  · -- membership, from the decomposition below
    have hd := (foldl_slowest rest s0).2.2
    obtain ⟨pre, post, hdecomp, _⟩ := hd
    rw [hl, slowestSpanOf_cons_self]
    show slowestSpanOf rest s0 ∈ s0 :: rest
    rw [show (slowestSpanOf rest s0) =
        rest.foldl (fun acc s => if durOr0 acc < durOr0 s then s else acc) s0 from rfl]
    rw [hdecomp]
    exact List.mem_append_right pre (List.mem_cons_self _ _)
  · -- maximality
    intro s hs
    rw [hl, slowestSpanOf_cons_self]
    have h1 := (foldl_slowest rest s0).1
    have h2 := (foldl_slowest rest s0).2.1
    rw [hl] at hs
    rcases List.mem_cons.mp hs with rfl | hs
    · exact h1
    · exact h2 s hs
  · -- first-of-the-maxima decomposition
    rw [hl, slowestSpanOf_cons_self]
    exact (foldl_slowest rest s0).2.2
  · -- the average
    show (totalTimeOf t.allSpans : ℚ) / (t.allSpans.length : ℚ) = _
    rw [totalTimeOf_eq_sum]

/-- Closed instance of C9 on a three-span trace. -/
theorem C9_witness :
    ((((Trace.create "t" "checkout" 0).startSpan "validate" 0).endSpan none
        50).allSpans ≠ []) ∧
    ∃ m sl, MetricsCollector.analyzeTrace
        (((Trace.create "t" "checkout" 0).startSpan "validate" 0).endSpan none 50)
        0 = some m ∧
      sl ∈ (((Trace.create "t" "checkout" 0).startSpan "validate" 0).endSpan
        none 50).allSpans ∧
      m.slowestOperation = (sl.name, durOr0 sl) ∧
      (∀ s ∈ (((Trace.create "t" "checkout" 0).startSpan "validate" 0).endSpan
          none 50).allSpans, durOr0 s ≤ durOr0 sl) ∧
      (∃ pre post, (((Trace.create "t" "checkout" 0).startSpan "validate"
          0).endSpan none 50).allSpans = pre ++ sl :: post ∧
        ∀ s ∈ pre, durOr0 s < durOr0 sl) ∧
      m.operationCount = (((Trace.create "t" "checkout" 0).startSpan "validate"
        0).endSpan none 50).allSpans.length ∧
      m.averageOperationTime =
        ((((((Trace.create "t" "checkout" 0).startSpan "validate" 0).endSpan
          none 50).allSpans.map durOr0).sum : Int) : ℚ) /
          ((((Trace.create "t" "checkout" 0).startSpan "validate" 0).endSpan
            none 50).allSpans.length : ℚ) :=
  ⟨by decide,
   C9_slowest_first_max_and_average
     (((Trace.create "t" "checkout" 0).startSpan "validate" 0).endSpan none 50)
     0 (by decide)⟩

end TraceDebugger
